import Mathlib

/-!
Verification of the Markov-chain text engine (`markov_engine.py`).

Text is embedded as `List Char` (Python `str`), tokens as `List Char`,
token sequences as `List (List Char)`.  Python dicts that preserve
insertion order are embedded as association lists; Python sets are
embedded as insertion-ordered duplicate-free lists.  The process-wide
pseudorandom source is embedded as a `RandSrc` record holding a stream of
indices (one per `random.choice` call, taken modulo the list length)
and a stream of booleans (one per `random.random() > 0.3` draw).
-/

/-- Whitespace characters recognised by Python's `str.split()` and `\s`. -/
def wsChar (c : Char) : Bool :=
  c = ' ' || c = '\t' || c = '\n' || c = '\r' || c = '\x0b' || c = '\x0c'

/-- Worker for whitespace splitting: `acc` is the current word, reversed. -/
def splitAux : List Char → List Char → List (List Char)
  | [], acc => if acc.isEmpty then [] else [acc.reverse]
  | c :: cs, acc =>
    if wsChar c then
      (if acc.isEmpty then [] else [acc.reverse]) ++ splitAux cs []
    else
      splitAux cs (c :: acc)

/-- `MarkovChain.tokenize`: `text.strip().split()` with empty fragments
dropped (splitting on whitespace runs already yields no empty fragment). -/
def tokenize (text : List Char) : List (List Char) :=
  splitAux text []

/-- `' '.join(tokens)`. -/
def joinL : List (List Char) → List Char
  | [] => []
  | [t] => t
  | t :: ts => t ++ ' ' :: joinL ts

/-- Python `str.strip()`: remove leading and trailing whitespace. -/
def stripL (s : List Char) : List Char :=
  ((s.dropWhile wsChar).reverse.dropWhile wsChar).reverse

/-- Python `str.lower()` (ASCII case folding suffices for the corpus model). -/
def lowerL (s : List Char) : List Char := s.map Char.toLower

/-- Sentence-terminal punctuation characters of `is_sentence_end`. -/
def sentChar (c : Char) : Bool := c = '.' || c = '!' || c = '?'

/-- `is_sentence_end` / `is_sentence_start`: `re.search(r'[.!?]$', word)`,
i.e. the word's last character is sentence-terminal punctuation.  The two
Python methods have identical bodies, so a single embedding serves both. -/
def sentEnd (w : List Char) : Bool :=
  match w.getLast? with
  | some c => sentChar c
  | none => false

/-- Python substring test `needle in hay` (prefix worker). -/
def isPrefixOfL : List Char → List Char → Bool
  | [], _ => true
  | _ :: _, [] => false
  | a :: as, b :: bs => a = b && isPrefixOfL as bs

/-- Python substring test `needle in hay`. -/
def isInfixOfL (needle : List Char) : List Char → Bool
  | [] => needle.isEmpty
  | c :: t => isPrefixOfL needle (c :: t) || isInfixOfL needle t

/-- Set insertion for a Python `set` embedded as an insertion-ordered
duplicate-free list. -/
def insertUnique (acc : List (List Char)) (w : List Char) : List (List Char) :=
  if w ∈ acc then acc else acc ++ [w]

/-- The error raised by `train` when the corpus is too small
(`ValueError` reporting required vs. actual token counts). -/
structure InsufficientCorpus where
  required : Nat
  actual : Nat
deriving DecidableEq

/-- The mutable model state of the `MarkovChain` class.  `chain` is the
insertion-ordered transition table (`defaultdict(list)`), `start_words`
the list of start states, `unique_words` the vocabulary set. -/
structure MarkovChain where
  chain : List (List Char × List (List Char))
  order : Nat
  start_words : List (List Char)
  corpus_text : List Char
  word_count : Nat
  unique_words : List (List Char)
deriving DecidableEq

/-- `self.chain[state].append(next_word)` on a `defaultdict(list)`:
a fresh key is appended at the end, an existing key's list is extended. -/
def chainAdd (chain : List (List Char × List (List Char)))
    (key : List Char) (w : List Char) : List (List Char × List (List Char)) :=
  match chain with
  | [] => [(key, [w])]
  | (k, ws) :: rest =>
    if k = key then (k, ws ++ [w]) :: rest else (k, ws) :: chainAdd rest key w

/-- `self.chain.get(state, [])`. -/
def chainGet (chain : List (List Char × List (List Char))) (key : List Char) :
    List (List Char) :=
  match chain with
  | [] => []
  | (k, ws) :: rest => if k = key then ws else chainGet rest key

/-- `state in self.chain` (key membership; does not create an entry). -/
def chainHas (chain : List (List Char × List (List Char))) (key : List Char) : Bool :=
  chain.any (fun p => decide (p.1 = key))

/-- One step of the chain-building loop body of `train` at window position `i`:
track unique words, register a start state when `i == 0` or the preceding
token ends a sentence, and append the successor token to the state's entry. -/
def buildStep (toks : List (List Char)) (order : Nat) (m : MarkovChain) (i : Nat) :
    MarkovChain :=
  { chain := chainAdd m.chain (joinL ((toks.drop i).take order)) (toks.getD (i + order) []),
    order := m.order,
    start_words :=
      if i = 0 ∨ sentEnd (toks.getD (i - 1) []) = true then
        m.start_words ++ [joinL ((toks.drop i).take order)]
      else m.start_words,
    corpus_text := m.corpus_text,
    word_count := m.word_count,
    unique_words :=
      (((toks.drop i).take order) ++ [toks.getD (i + order) []]).foldl insertUnique
        m.unique_words }

/-- The model state right after `train` resets every field and records the
new corpus, word count and order — the state left behind when the
insufficient-corpus error is raised. -/
def mkCleared (text : List Char) (order : Nat) : MarkovChain :=
  { chain := [], order := order, start_words := [], corpus_text := text,
    word_count := (tokenize text).length, unique_words := [] }

/-- The chain-building loop `for i in range(len(tokens) - order)`. -/
def trainBuild (toks : List (List Char)) (order : Nat) (m : MarkovChain) : MarkovChain :=
  (List.range (toks.length - order)).foldl (buildStep toks order) m

/-- Post-pass of `train`: if no start state was registered, the state at
position 0 becomes the sole start state. -/
def withStartFallback (toks : List (List Char)) (order : Nat) (m : MarkovChain) :
    MarkovChain :=
  if m.start_words.isEmpty then { m with start_words := [joinL (toks.take order)] }
  else m

/-- `MarkovChain.train(text, order)`.  The Python method mutates `self` in
place and then possibly raises; the embedding returns the post-call model
state together with the raised error, if any.  Note the reset of every
field happens before the size check, so a failing call still replaces the
previous model state. -/
def train (_m0 : MarkovChain) (text : List Char) (order : Nat) :
    MarkovChain × Option InsufficientCorpus :=
  if (tokenize text).length < order + 1 then
    (mkCleared text order,
      some { required := order + 1, actual := (tokenize text).length })
  else
    (withStartFallback (tokenize text) order
      (trainBuild (tokenize text) order (mkCleared text order)), none)

/-- The process-wide pseudorandom source: a stream of indices (one per
`random.choice` call) and a stream of booleans (one per
`random.random() > 0.3` draw). -/
structure RandSrc where
  picks : List Nat
  coins : List Bool
deriving DecidableEq

/-- The index consumed by the next `random.choice` call. -/
def randPick (r : RandSrc) : Nat := r.picks.headD 0

/-- The source after one `random.choice` call. -/
def randNext (r : RandSrc) : RandSrc := { picks := r.picks.tail, coins := r.coins }

/-- The outcome of the next `random.random() > 0.3` draw. -/
def coinVal (r : RandSrc) : Bool := r.coins.headD false

/-- The source after one `random.random()` draw. -/
def coinNext (r : RandSrc) : RandSrc := { picks := r.picks, coins := r.coins.tail }

/-- `random.choice(l)`: the element at the drawn index (uniform over the
list; the drawn raw index is reduced modulo the length).  `d` is returned
on the empty list, on which Python's `random.choice` would raise. -/
def chooseD (l : List α) (d : α) (n : Nat) : α := l.getD (n % l.length) d

/-- The errors `generate` can raise: `RuntimeError` before training, and
`ValueError` when no seed token is in the vocabulary (carrying the seed
and the sample words quoted in the message). -/
inductive GenError where
  | modelNotTrained : GenError
  | seedNotFound : List Char → List (List Char) → GenError
deriving DecidableEq

/-- Python slice `l[-k:]` (note `l[-0:]` is the whole list). -/
def negSlice (l : List α) (k : Nat) : List α :=
  if k = 0 then l else l.drop (l.length - k)

/-- Seed-state construction of `generate` (after the vocabulary check):
with at least `order` seed tokens the last `order` of them are joined;
otherwise the seed is left-padded with the leading tokens of a randomly
chosen start state. -/
def seedInitState (m : MarkovChain) (seed_tokens : List (List Char)) (r : RandSrc) :
    List Char × RandSrc :=
  if m.order ≤ seed_tokens.length then
    (joinL (negSlice seed_tokens m.order), r)
  else
    (joinL ((tokenize (chooseD m.start_words [] (randPick r))).take
        (m.order - seed_tokens.length) ++ seed_tokens),
      randNext r)

/-- Seed tokens that occur (case-insensitively) in the vocabulary
(`seed_words_in_corpus`). -/
def seedMatches (m : MarkovChain) (seed_tokens : List (List Char)) :
    List (List Char) :=
  seed_tokens.filter (fun w => decide (lowerL w ∈ m.unique_words.map lowerL))

/-- The sample words quoted in the seed-not-found message:
`list(unique_words)[:10]` if more than 10, then `[:5]`. -/
def sampleWords (m : MarkovChain) : List (List Char) :=
  (if 10 < m.unique_words.length then m.unique_words.take 10
   else m.unique_words).take 5

/-- Table keys containing (case-insensitively) some matched seed token as a
substring (`matching_states`). -/
def matchingStates (m : MarkovChain) (sw : List (List Char)) : List (List Char) :=
  (m.chain.map Prod.fst).filter
    (fun st => sw.any (fun w => isInfixOfL (lowerL w) (lowerL st)))

/-- `random.choice(self.start_words)` together with the advanced source. -/
def startPick (m : MarkovChain) (r : RandSrc) : List Char × RandSrc :=
  (chooseD m.start_words [] (randPick r), randNext r)

/-- Initial-state selection of `generate`: the not-trained check, the
truthiness test `if seed:`, the vocabulary check, the seed-state
construction and its two fallbacks, or a random start state when no seed
is supplied. -/
def genInit (m : MarkovChain) (seed : Option (List Char)) (r : RandSrc) :
    Except GenError (List Char × RandSrc) :=
  if m.chain.isEmpty then Except.error GenError.modelNotTrained
  else
    match seed with
    | none => Except.ok (startPick m r)
    | some s =>
      if s.isEmpty then Except.ok (startPick m r)
      else
        if (seedMatches m (tokenize s)).isEmpty then
          Except.error (GenError.seedNotFound s (sampleWords m))
        else
          if chainHas m.chain (seedInitState m (tokenize s) r).fst then
            Except.ok (seedInitState m (tokenize s) r)
          else
            if (matchingStates m (seedMatches m (tokenize s))).isEmpty then
              Except.ok (startPick m (seedInitState m (tokenize s) r).snd)
            else
              Except.ok
                (chooseD (matchingStates m (seedMatches m (tokenize s))) []
                    (randPick (seedInitState m (tokenize s) r).snd),
                  randNext (seedInitState m (tokenize s) r).snd)

/-- The mutable state of the generation walk: `result` (the produced token
sequence), `cur` (the current state string), `generated_words`, the number
of loop iterations executed so far, and the random source. -/
structure WalkSt where
  result : List (List Char)
  cur : List Char
  generated : Nat
  iters : Nat
  r : RandSrc
deriving DecidableEq

/-- Dead-end branch of the walk loop: append an empty token, splice in a
fresh random start state, refresh `generated_words` from the result. -/
def deadEndStep (m : MarkovChain) (st : WalkSt) : WalkSt :=
  { result := st.result ++ [] :: tokenize (chooseD m.start_words [] (randPick st.r)),
    cur := chooseD m.start_words [] (randPick st.r),
    generated :=
      (st.result ++ [] :: tokenize (chooseD m.start_words [] (randPick st.r))).length,
    iters := st.iters + 1,
    r := randNext st.r }

/-- The candidate chosen by `random.choice(possible_next_words)`. -/
def moveNext (m : MarkovChain) (st : WalkSt) : List Char :=
  chooseD (chainGet m.chain st.cur) [] (randPick st.r)

/-- Window slide: drop the oldest state token, append the new one. -/
def slideCur (st : WalkSt) (nw : List Char) : List Char :=
  joinL ((tokenize st.cur).tail ++ [nw])

/-- Normal branch of the walk loop: append a random candidate, slide the
window, and stochastically jump to a random start state after a
sentence-terminal token when room remains before the length budget. -/
def moveStep (m : MarkovChain) (len : Nat) (st : WalkSt) : WalkSt :=
  { result := st.result ++ [moveNext m st],
    cur :=
      if sentEnd (moveNext m st) then
        if coinVal (randNext st.r) then
          if st.generated + 1 < len - m.order then
            chooseD m.start_words [] (randPick (coinNext (randNext st.r)))
          else slideCur st (moveNext m st)
        else slideCur st (moveNext m st)
      else slideCur st (moveNext m st),
    generated := st.generated + 1,
    iters := st.iters + 1,
    r :=
      if sentEnd (moveNext m st) then
        if coinVal (randNext st.r) then
          if st.generated + 1 < len - m.order then
            randNext (coinNext (randNext st.r))
          else coinNext (randNext st.r)
        else coinNext (randNext st.r)
      else randNext st.r }

/-- The walk loop `while generated_words < length and iterations <
max_iterations`, with `fuel` the remaining iteration budget. -/
def walkLoop (m : MarkovChain) (len : Nat) : Nat → WalkSt → WalkSt
  | 0, st => st
  | fuel + 1, st =>
    if st.generated < len then
      if (chainGet m.chain st.cur).isEmpty then
        walkLoop m len fuel (deadEndStep m st)
      else
        walkLoop m len fuel (moveStep m len st)
    else st

/-- `MarkovChain.generate` up to (and including) the walk loop, exposing the
final walk state; `max_iterations = length * 3`. -/
def generateFull (m : MarkovChain) (len : Nat) (seed : Option (List Char))
    (r : RandSrc) : Except GenError WalkSt :=
  match genInit m seed r with
  | Except.error e => Except.error e
  | Except.ok (cur, r1) =>
    Except.ok (walkLoop m len (len * 3)
      { result := tokenize cur, cur := cur, generated := (tokenize cur).length,
        iters := 0, r := r1 })

/-- `MarkovChain.generate(length, seed)`: the final result tokens joined by
single spaces, stripped. -/
def generate (m : MarkovChain) (len : Nat) (seed : Option (List Char))
    (r : RandSrc) : Except GenError (List Char) :=
  (generateFull m len seed r).map (fun st => stripL (joinL st.result))

/-- `Counter` update: bump the count of `k`, inserting it at the end on
first occurrence (counter iteration order is insertion order). -/
def bumpCount (acc : List (List Char × Nat)) (k : List Char) :
    List (List Char × Nat) :=
  match acc with
  | [] => [(k, 1)]
  | (k', c) :: rest =>
    if k' = k then (k', c + 1) :: rest else (k', c) :: bumpCount rest k

/-- Stable descending insertion for `Counter.most_common`: an element goes
after every earlier element with a count at least as large. -/
def insertByCount (p : List Char × Nat) : List (List Char × Nat) →
    List (List Char × Nat)
  | [] => [p]
  | q :: rest => if p.2 ≤ q.2 then q :: insertByCount p rest else p :: q :: rest

/-- `Counter.most_common`: counts sorted by count descending, ties kept in
first-encountered order. -/
def sortCountDesc (l : List (List Char × Nat)) : List (List Char × Nat) :=
  l.foldl (fun acc p => insertByCount p acc) []

/-- `MarkovChain.get_ngram_frequencies(n, limit)`: re-tokenize the stored
corpus, count all width-`n` windows, return the top `limit` by count.
The guard mirrors Python's `range(len(tokens) - n + 1)` being empty when
`len(tokens) - n + 1 <= 0`. -/
def get_ngram_frequencies (m : MarkovChain) (n : Nat) (limit : Nat) :
    List (List Char × Nat) :=
  ((sortCountDesc
    ((if (tokenize m.corpus_text).length + 1 ≤ n then []
      else List.range ((tokenize m.corpus_text).length - n + 1)).foldl
      (fun acc i =>
        bumpCount acc (joinL (((tokenize m.corpus_text).drop i).take n)))
      [])).take limit)

/-- Sentence splitter `re.split(r'[.!?]+', text)`: `inRun` records whether
the previous character belonged to a delimiter run. -/
def sentSplitGo : List Char → List Char → Bool → List (List Char)
  | [], acc, _ => [acc.reverse]
  | c :: cs, acc, inRun =>
    if sentChar c then
      if inRun then sentSplitGo cs acc true
      else acc.reverse :: sentSplitGo cs [] true
    else sentSplitGo cs (c :: acc) false

/-- `re.split(r'[.!?]+', text)`. -/
def sentSplit (text : List Char) : List (List Char) := sentSplitGo text [] false

/-- Characters stripped by `word.lower().strip('.,!?;:')`. -/
def punctChars : List Char := ['.', ',', '!', '?', ';', ':']

/-- Python `str.strip('.,!?;:')`. -/
def stripPunct (w : List Char) : List Char :=
  ((w.dropWhile (fun c => c ∈ punctChars)).reverse.dropWhile
      (fun c => c ∈ punctChars)).reverse

/-- The result fields of `analyze_text` the claims are about (the remaining
fields are rounded floating-point averages, outside this model). -/
structure Analysis where
  word_count : Nat
  sentence_count : Nat
  character_count : Nat
  unique_words : Nat
deriving DecidableEq

/-- `analyze_text(text)`: whitespace-split words, sentences from splitting
on runs of `.!?` with blank fragments dropped, non-whitespace character
count, and the count of lower-cased punctuation-stripped unique words. -/
def analyze_text (text : List Char) : Analysis :=
  { word_count := (tokenize text).length,
    sentence_count :=
      (((sentSplit text).map stripL).filter (fun s => !s.isEmpty)).length,
    character_count := (text.filter (fun c => !wsChar c)).length,
    unique_words :=
      ((tokenize text).foldl
        (fun acc w => insertUnique acc (stripPunct (lowerL w))) []).length }

/-- A table key arising from the sliding window: the space-join of `order`
consecutive corpus tokens fitting inside the corpus. -/
def sliceKey (toks : List (List Char)) (order : Nat) (k : List Char) : Prop :=
  ∃ i, i + order ≤ toks.length ∧ k = joinL ((toks.drop i).take order)

/-- A well-formed transition-table entry: a sliding-window key, a non-empty
candidate list, and candidates drawn from the corpus tokens. -/
def GoodEntry (toks : List (List Char)) (order : Nat)
    (p : List Char × List (List Char)) : Prop :=
  sliceKey toks order p.1 ∧ p.2 ≠ [] ∧ ∀ w ∈ p.2, w ∈ toks
/-! ### Concrete models used as witnesses and counterexamples -/

/-- A freshly constructed model (`MarkovChain.__init__`). -/
def mInit : MarkovChain :=
  { chain := [], order := 1, start_words := [], corpus_text := [],
    word_count := 0, unique_words := [] }

/-- A tiny three-token corpus. -/
def textABC : List Char := ("a b c").data

/-- The model trained on `"a b c"` with order 1. -/
def mABC : MarkovChain := (train mInit textABC 1).fst

/-- The model trained on `"a b c"` with order 2. -/
def mAB2 : MarkovChain := (train mInit textABC 2).fst

/-- A one-token corpus, too small for any training order. -/
def xText : List Char := ("x").data

/-- A concrete random source (every index draw yields 0, every coin draw
yields false). -/
def rand0 : RandSrc := { picks := [], coins := [] }

/-- The concrete-scenario corpus of the spec. -/
def textC8 : List Char := ("The cat sat. The dog ran.").data

/-- The model trained on the concrete-scenario corpus with order 1. -/
def mC8 : MarkovChain := (train mInit textC8 1).fst

/-- The concrete analyzer input of the spec. -/
def textC9 : List Char := ("Hi! Bye.").data
/-- The concrete final walk state of a generation run on the `"a b c"`
model. -/
def stC6 : WalkSt :=
  match generateFull mABC 1 none rand0 with
  | Except.ok st => st
  | Except.error _ =>
    { result := [], cur := [], generated := 0, iters := 0, r := rand0 }
/-- A one-token seed used by witnesses. -/
def seedB : List Char := ("b").data
/-- Whether an embedded generation call returned normally. -/
def isOkB : Except GenError (List Char) → Bool
  | Except.ok _ => true
  | Except.error _ => false
/-- A seed absent from every corpus used by the witnesses. -/
def seedZ : List Char := ("zzq").data

/-! ### Lemmas about whitespace splitting and joining -/

/-- Tokens produced by `splitAux` are non-empty and whitespace-free,
provided the accumulator is whitespace-free. -/
lemma splitAux_good : ∀ (cs acc : List Char), (∀ c ∈ acc, wsChar c = false) →
    ∀ t ∈ splitAux cs acc, t ≠ [] ∧ ∀ c ∈ t, wsChar c = false := by
  intro cs
  induction cs with
  | nil =>
    intro acc hacc t ht
    cases acc with
    | nil => simp [splitAux] at ht
    | cons a as =>
      simp [splitAux] at ht
      subst ht
      refine ⟨by simp, ?_⟩
      intro c hc
      rcases List.mem_append.mp hc with h | h
      · exact hacc c (List.mem_cons_of_mem _ (List.mem_reverse.mp h))
      · simp at h
        subst h
        exact hacc c (List.mem_cons_self _ _)
  | cons c cs ih =>
    intro acc hacc t ht
    by_cases hw : wsChar c
    · simp only [splitAux, hw, if_pos] at ht
      rcases List.mem_append.mp ht with h1 | h2
      · cases acc with
        | nil => simp at h1
        | cons a as =>
          simp at h1
          subst h1
          refine ⟨by simp, ?_⟩
          intro x hx
          rcases List.mem_append.mp hx with h | h
          · exact hacc x (List.mem_cons_of_mem _ (List.mem_reverse.mp h))
          · simp at h
            subst h
            exact hacc x (List.mem_cons_self _ _)
      · exact ih [] (by simp) t h2
    · simp only [splitAux, hw, if_neg, Bool.false_eq_true, not_false_iff] at ht
      refine ih (c :: acc) ?_ t ht
      intro x hx
      rcases List.mem_cons.mp hx with rfl | hx'
      · simpa using hw
      · exact hacc x hx'

/-- Every token of `tokenize` is non-empty and whitespace-free. -/
lemma tokenize_good (cs : List Char) :
    ∀ t ∈ tokenize cs, t ≠ [] ∧ ∀ c ∈ t, wsChar c = false :=
  splitAux_good cs [] (by simp)

/-- Splitting a whitespace-free word followed by a space flushes the word. -/
lemma splitAux_push : ∀ (t : List Char) (cs acc : List Char),
    (∀ c ∈ t, wsChar c = false) → (t ≠ [] ∨ acc ≠ []) →
    splitAux (t ++ ' ' :: cs) acc = (acc.reverse ++ t) :: splitAux cs [] := by
  intro t
  induction t with
  | nil =>
    intro cs acc _ hne
    have hacc : acc ≠ [] := by tauto
    have : acc.isEmpty = false := by
      cases acc with
      | nil => exact absurd rfl hacc
      | cons a as => rfl
    simp [splitAux, this, wsChar]
  | cons a t ih =>
    intro cs acc hw _
    have ha : wsChar a = false := hw a (List.mem_cons_self _ _)
    have step : splitAux ((a :: t) ++ ' ' :: cs) acc =
        splitAux (t ++ ' ' :: cs) (a :: acc) := by
      simp [List.cons_append, splitAux, ha]
    rw [step, ih cs (a :: acc) (fun c hc => hw c (List.mem_cons_of_mem _ hc))
      (Or.inr (by simp))]
    simp

/-- Splitting a single whitespace-free word flushes the word. -/
lemma splitAux_final : ∀ (t acc : List Char),
    (∀ c ∈ t, wsChar c = false) → (t ≠ [] ∨ acc ≠ []) →
    splitAux t acc = [acc.reverse ++ t] := by
  intro t
  induction t with
  | nil =>
    intro acc _ hne
    have hacc : acc ≠ [] := by tauto
    have : acc.isEmpty = false := by
      cases acc with
      | nil => exact absurd rfl hacc
      | cons a as => rfl
    simp [splitAux, this]
  | cons a t ih =>
    intro acc hw _
    have ha : wsChar a = false := hw a (List.mem_cons_self _ _)
    have step : splitAux (a :: t) acc = splitAux t (a :: acc) := by
      simp [splitAux, ha]
    rw [step, ih (a :: acc) (fun c hc => hw c (List.mem_cons_of_mem _ hc))
      (Or.inr (by simp))]
    simp

/-- Re-tokenizing a space-join of whitespace-free tokens recovers exactly the
non-empty tokens. -/
lemma tokenize_joinL_filter : ∀ (ts : List (List Char)),
    (∀ t ∈ ts, ∀ c ∈ t, wsChar c = false) →
    tokenize (joinL ts) = ts.filter (fun t => !t.isEmpty) := by
  intro ts
  induction ts with
  | nil => intro _; rfl
  | cons t ts ih =>
    intro h
    have ht : ∀ c ∈ t, wsChar c = false := h t (List.mem_cons_self _ _)
    have hts : ∀ u ∈ ts, ∀ c ∈ u, wsChar c = false :=
      fun u hu => h u (List.mem_cons_of_mem _ hu)
    cases ts with
    | nil =>
      cases t with
      | nil => rfl
      | cons a t' =>
        show splitAux (a :: t') [] = _
        rw [splitAux_final (a :: t') [] ht (Or.inl (by simp))]
        rfl
    | cons t2 rest =>
      have hjoin : joinL (t :: t2 :: rest) = t ++ ' ' :: joinL (t2 :: rest) := rfl
      cases t with
      | nil =>
        show splitAux (' ' :: joinL (t2 :: rest)) [] = _
        have : splitAux (' ' :: joinL (t2 :: rest)) [] =
            splitAux (joinL (t2 :: rest)) [] := by
          simp [splitAux, wsChar]
        rw [this, show splitAux (joinL (t2 :: rest)) [] =
          tokenize (joinL (t2 :: rest)) from rfl, ih hts]
        rfl
      | cons a t' =>
        show splitAux ((a :: t') ++ ' ' :: joinL (t2 :: rest)) [] = _
        rw [splitAux_push (a :: t') (joinL (t2 :: rest)) [] ht (Or.inl (by simp))]
        rw [show splitAux (joinL (t2 :: rest)) [] = tokenize (joinL (t2 :: rest))
          from rfl, ih hts]
        simp

/-- Re-tokenizing a space-join of non-empty whitespace-free tokens is the
identity. -/
lemma tokenize_joinL (ts : List (List Char))
    (h : ∀ t ∈ ts, t ≠ [] ∧ ∀ c ∈ t, wsChar c = false) :
    tokenize (joinL ts) = ts := by
  rw [tokenize_joinL_filter ts (fun t ht => (h t ht).2)]
  apply List.filter_eq_self.mpr
  intro t ht
  have := (h t ht).1
  cases t with
  | nil => exact absurd rfl this
  | cons a t' => rfl

/-- Splitting an all-whitespace string only flushes the accumulator. -/
lemma splitAux_allWs : ∀ (w : List Char) (acc : List Char),
    (∀ c ∈ w, wsChar c = true) →
    splitAux w acc = if acc.isEmpty then [] else [acc.reverse] := by
  intro w
  induction w with
  | nil => intro acc _; rfl
  | cons c w ih =>
    intro acc hw
    have hc : wsChar c = true := hw c (List.mem_cons_self _ _)
    have step : splitAux (c :: w) acc =
        (if acc.isEmpty then [] else [acc.reverse]) ++ splitAux w [] := by
      simp [splitAux, hc]
    rw [step, ih [] (fun x hx => hw x (List.mem_cons_of_mem _ hx))]
    simp

/-- Trailing whitespace does not affect splitting. -/
lemma splitAux_append_ws : ∀ (cs w acc : List Char),
    (∀ c ∈ w, wsChar c = true) →
    splitAux (cs ++ w) acc = splitAux cs acc := by
  intro cs
  induction cs with
  | nil =>
    intro w acc hw
    rw [List.nil_append, splitAux_allWs w acc hw]
    rfl
  | cons c cs ih =>
    intro w acc hw
    by_cases hc : wsChar c
    · have step1 : splitAux ((c :: cs) ++ w) acc =
          (if acc.isEmpty then [] else [acc.reverse]) ++ splitAux (cs ++ w) [] := by
        simp [splitAux, hc]
      have step2 : splitAux (c :: cs) acc =
          (if acc.isEmpty then [] else [acc.reverse]) ++ splitAux cs [] := by
        simp [splitAux, hc]
      rw [step1, step2, ih w [] hw]
    · have step1 : splitAux ((c :: cs) ++ w) acc = splitAux (cs ++ w) (c :: acc) := by
        simp [splitAux, hc]
      have step2 : splitAux (c :: cs) acc = splitAux cs (c :: acc) := by
        simp [splitAux, hc]
      rw [step1, step2, ih w (c :: acc) hw]

/-- Leading whitespace does not affect tokenization. -/
lemma tokenize_ws_prefix : ∀ (w cs : List Char), (∀ c ∈ w, wsChar c = true) →
    tokenize (w ++ cs) = tokenize cs := by
  intro w
  induction w with
  | nil => intro cs _; rfl
  | cons c w ih =>
    intro cs hw
    have hc : wsChar c = true := hw c (List.mem_cons_self _ _)
    have step : tokenize ((c :: w) ++ cs) = splitAux (w ++ cs) [] := by
      simp [tokenize, splitAux, hc]
    rw [step]
    exact ih cs (fun x hx => hw x (List.mem_cons_of_mem _ hx))

/-- `str.strip()` does not affect tokenization. -/
lemma tokenize_stripL (x : List Char) : tokenize (stripL x) = tokenize x := by
  have h1 : tokenize x = tokenize (x.dropWhile wsChar) := by
    conv_lhs => rw [← List.takeWhile_append_dropWhile (p := wsChar) (l := x)]
    exact tokenize_ws_prefix _ _ (fun c hc => List.mem_takeWhile_imp hc)
  have hdecomp : x.dropWhile wsChar =
      ((x.dropWhile wsChar).reverse.dropWhile wsChar).reverse ++
        ((x.dropWhile wsChar).reverse.takeWhile wsChar).reverse := by
    conv_lhs => rw [← List.reverse_reverse (x.dropWhile wsChar),
      ← List.takeWhile_append_dropWhile (p := wsChar)
        (l := (x.dropWhile wsChar).reverse)]
    rw [List.reverse_append]
  have h2 : tokenize (x.dropWhile wsChar) = tokenize (stripL x) := by
    conv_lhs => rw [hdecomp]
    exact splitAux_append_ws _ _ []
      (fun c hc => List.mem_takeWhile_imp (List.mem_reverse.mp hc))
  rw [h1, h2]

/-! ### Invariants established by training -/

/-- Re-tokenizing a sliding-window key recovers the window: a slice of
length `order` whose tokens are corpus tokens. -/
lemma sliceKey_tokenize {toks : List (List Char)} {order : Nat} {k : List Char}
    (htoks : ∀ t ∈ toks, t ≠ [] ∧ ∀ c ∈ t, wsChar c = false)
    (hk : sliceKey toks order k) :
    ∃ sl, tokenize k = sl ∧ sl.length = order ∧ ∀ t ∈ sl, t ∈ toks := by
  obtain ⟨i, hle, rfl⟩ := hk
  refine ⟨(toks.drop i).take order, ?_, ?_, ?_⟩
  · exact tokenize_joinL _ (fun t ht =>
      htoks t (List.drop_subset i toks (List.take_subset order _ ht)))
  · rw [List.length_take, List.length_drop]
    omega
  · intro t ht
    exact List.drop_subset i toks (List.take_subset order _ ht)

/-- `chainAdd` never yields an empty table. -/
lemma chainAdd_ne_nil (c : List (List Char × List (List Char)))
    (k w : List Char) : chainAdd c k w ≠ [] := by
  cases c with
  | nil => simp [chainAdd]
  | cons p rest =>
    obtain ⟨k', ws⟩ := p
    by_cases h : k' = k <;> simp [chainAdd, h]

/-- `chainAdd` preserves entry well-formedness. -/
lemma chainAdd_good {toks : List (List Char)} {order : Nat} :
    ∀ (c : List (List Char × List (List Char))) (k w : List Char),
    (∀ p ∈ c, GoodEntry toks order p) → sliceKey toks order k → w ∈ toks →
    ∀ p ∈ chainAdd c k w, GoodEntry toks order p := by
  intro c
  induction c with
  | nil =>
    intro k w _ hk hw p hp
    simp [chainAdd] at hp
    subst hp
    exact ⟨hk, by simp, by simpa using hw⟩
  | cons q rest ih =>
    intro k w hc hk hw p hp
    obtain ⟨k', ws⟩ := q
    by_cases h : k' = k
    · subst h
      simp only [chainAdd, if_pos] at hp
      rcases List.mem_cons.mp hp with rfl | hp'
      · have hq := hc (k', ws) (List.mem_cons_self _ _)
        refine ⟨hq.1, by simp, ?_⟩
        intro x hx
        rcases List.mem_append.mp hx with h1 | h1
        · exact hq.2.2 x h1
        · simp at h1
          subst h1
          exact hw
      · exact hc p (List.mem_cons_of_mem _ hp')
    · simp only [chainAdd, h, if_neg, not_false_iff] at hp
      rcases List.mem_cons.mp hp with rfl | hp'
      · exact hc _ (List.mem_cons_self _ _)
      · exact ih k w (fun q hq => hc q (List.mem_cons_of_mem _ hq)) hk hw p hp'

/-- Every candidate returned by a table lookup comes from some entry. -/
lemma chainGet_mem : ∀ (c : List (List Char × List (List Char)))
    (k w : List Char), w ∈ chainGet c k → ∃ p ∈ c, w ∈ p.2 := by
  intro c
  induction c with
  | nil => intro k w h; simp [chainGet] at h
  | cons q rest ih =>
    intro k w h
    obtain ⟨k', ws⟩ := q
    by_cases hk : k' = k
    · simp only [chainGet, hk, if_pos] at h
      exact ⟨(k', ws), List.mem_cons_self _ _, h⟩
    · simp only [chainGet, hk, if_neg, not_false_iff] at h
      obtain ⟨p, hp, hw⟩ := ih k w h
      exact ⟨p, List.mem_cons_of_mem _ hp, hw⟩

/-- An in-bounds `getD` is a member. -/
lemma getD_mem {α : Type} {l : List α} {n : Nat} {d : α} (h : n < l.length) :
    l.getD n d ∈ l := by
  rw [List.getD_eq_getElem?_getD, List.getElem?_eq_getElem h]
  exact List.getElem_mem h

/-- One build step preserves the chain and start-state invariants. -/
lemma buildStep_inv {toks : List (List Char)} {order : Nat} (m : MarkovChain)
    (i : Nat) (hi : i + order < toks.length)
    (hc : ∀ p ∈ m.chain, GoodEntry toks order p)
    (hs : ∀ s ∈ m.start_words, sliceKey toks order s) :
    (∀ p ∈ (buildStep toks order m i).chain, GoodEntry toks order p) ∧
    (∀ s ∈ (buildStep toks order m i).start_words, sliceKey toks order s) := by
  have hkey : sliceKey toks order (joinL ((toks.drop i).take order)) :=
    ⟨i, Nat.le_of_lt hi, rfl⟩
  have hw : toks.getD (i + order) [] ∈ toks := getD_mem hi
  constructor
  · exact chainAdd_good m.chain _ _ hc hkey hw
  · intro s hsm
    simp only [buildStep] at hsm
    by_cases hcond : i = 0 ∨ sentEnd (toks.getD (i - 1) []) = true
    · rw [if_pos hcond] at hsm
      rcases List.mem_append.mp hsm with h1 | h1
      · exact hs s h1
      · simp at h1
        subst h1
        exact hkey
    · rw [if_neg hcond] at hsm
      exact hs s hsm

/-- The build fold preserves the chain and start-state invariants. -/
lemma foldl_buildStep_inv {toks : List (List Char)} {order : Nat} :
    ∀ (idxs : List Nat) (m : MarkovChain),
    (∀ i ∈ idxs, i + order < toks.length) →
    (∀ p ∈ m.chain, GoodEntry toks order p) →
    (∀ s ∈ m.start_words, sliceKey toks order s) →
    (∀ p ∈ (idxs.foldl (buildStep toks order) m).chain, GoodEntry toks order p) ∧
    (∀ s ∈ (idxs.foldl (buildStep toks order) m).start_words,
      sliceKey toks order s) := by
  intro idxs
  induction idxs with
  | nil => intro m _ hc hs; exact ⟨hc, hs⟩
  | cons i rest ih =>
    intro m hidx hc hs
    have hi : i + order < toks.length := hidx i (List.mem_cons_self _ _)
    obtain ⟨hc', hs'⟩ := buildStep_inv m i hi hc hs
    exact ih (buildStep toks order m i)
      (fun j hj => hidx j (List.mem_cons_of_mem _ hj)) hc' hs'

/-- The build fold preserves a non-empty table. -/
lemma foldl_buildStep_chain_ne {toks : List (List Char)} {order : Nat} :
    ∀ (idxs : List Nat) (m : MarkovChain), m.chain ≠ [] →
    (idxs.foldl (buildStep toks order) m).chain ≠ [] := by
  intro idxs
  induction idxs with
  | nil => intro m h; exact h
  | cons i rest ih =>
    intro m _
    exact ih (buildStep toks order m i) (chainAdd_ne_nil _ _ _)

/-- The build fold does not change the recorded order. -/
lemma foldl_buildStep_order {toks : List (List Char)} {order : Nat} :
    ∀ (idxs : List Nat) (m : MarkovChain),
    (idxs.foldl (buildStep toks order) m).order = m.order := by
  intro idxs
  induction idxs with
  | nil => intro m; rfl
  | cons i rest ih => intro m; exact ih (buildStep toks order m i)

/-- The start fallback does not change the table. -/
lemma withStartFallback_chain (toks : List (List Char)) (order : Nat)
    (m : MarkovChain) : (withStartFallback toks order m).chain = m.chain := by
  unfold withStartFallback
  split <;> rfl

/-- The start fallback does not change the recorded order. -/
lemma withStartFallback_order (toks : List (List Char)) (order : Nat)
    (m : MarkovChain) : (withStartFallback toks order m).order = m.order := by
  unfold withStartFallback
  split <;> rfl

/-- The properties of the model state after a successful `train` call:
the corpus was long enough, the recorded order is the trained order,
the table and start-state set are non-empty, every table entry is
well-formed, and every start state is a sliding-window key. -/
theorem train_ok {m0 : MarkovChain} {text : List Char} {order : Nat}
    {m : MarkovChain} (h : train m0 text order = (m, none)) :
    order + 1 ≤ (tokenize text).length ∧
    m.order = order ∧
    m.chain ≠ [] ∧
    m.start_words ≠ [] ∧
    (∀ p ∈ m.chain, GoodEntry (tokenize text) order p) ∧
    (∀ s ∈ m.start_words, sliceKey (tokenize text) order s) := by
  unfold train at h
  split at h
  · exact absurd (congrArg Prod.snd h) (by simp)
  · rename_i hlen
    have hN : order + 1 ≤ (tokenize text).length := by omega
    have hm : m = withStartFallback (tokenize text) order
        (trainBuild (tokenize text) order (mkCleared text order)) := by
      have := congrArg Prod.fst h
      simp at this
      exact this.symm
    subst hm
    have hidx : ∀ i ∈ List.range ((tokenize text).length - order),
        i + order < (tokenize text).length := by
      intro i hi
      have := List.mem_range.mp hi
      omega
    obtain ⟨hc, hs⟩ := foldl_buildStep_inv
      (List.range ((tokenize text).length - order)) (mkCleared text order) hidx
      (by simp [mkCleared]) (by simp [mkCleared])
    have hchain_ne : (trainBuild (tokenize text) order (mkCleared text order)).chain ≠ [] := by
      unfold trainBuild
      cases hr : List.range ((tokenize text).length - order) with
      | nil =>
        exfalso
        have := List.range_eq_nil.mp hr
        omega
      | cons i rest =>
        rw [List.foldl_cons]
        exact foldl_buildStep_chain_ne rest _ (chainAdd_ne_nil _ _ _)
    have horder : (trainBuild (tokenize text) order (mkCleared text order)).order
        = order := by
      unfold trainBuild
      rw [foldl_buildStep_order]
      rfl
    refine ⟨hN, ?_, ?_, ?_, ?_, ?_⟩
    · rw [withStartFallback_order]
      exact horder
    · rw [withStartFallback_chain]
      exact hchain_ne
    · unfold withStartFallback
      split
      · simp
      · rename_i hne
        intro hnil
        exact hne (List.isEmpty_iff.mpr hnil)
    · rw [withStartFallback_chain]
      exact hc
    · unfold withStartFallback
      split
      · intro s hsm
        simp at hsm
        subst hsm
        refine ⟨0, by omega, ?_⟩
        rw [List.drop_zero]
      · exact hs

/-! ### Claim C1 -/

/-- C1: for every text and every order ≥ 1, `train(text, order)` fails with
an `InsufficientCorpus` error reporting required `order + 1` versus the
actual token count if and only if the tokenized text has fewer than
`order + 1` tokens; at the boundary, a corpus of exactly `order + 1`
tokens trains successfully and yields exactly one state and exactly one
transition. -/
theorem train_insufficient_iff_and_boundary (m0 : MarkovChain)
    (text : List Char) (order : Nat) (_ho : 1 ≤ order) :
    ((train m0 text order).snd =
        some { required := order + 1, actual := (tokenize text).length } ↔
      (tokenize text).length < order + 1) ∧
    ((tokenize text).length = order + 1 →
      (train m0 text order).snd = none ∧
      (train m0 text order).fst.chain.length = 1 ∧
      ∀ p ∈ (train m0 text order).fst.chain, p.2.length = 1) := by
  constructor
  · unfold train
    split
    · rename_i hlt
      simpa using hlt
    · rename_i hlt
      simpa using hlt
  · intro hb
    have hnlt : ¬ (tokenize text).length < order + 1 := by omega
    unfold train
    rw [if_neg hnlt]
    have hrange : (tokenize text).length - order = 1 := by omega
    have hchain : (withStartFallback (tokenize text) order
        (trainBuild (tokenize text) order (mkCleared text order))).chain =
        [(joinL (((tokenize text).drop 0).take order),
          [(tokenize text).getD (0 + order) []])] := by
      rw [withStartFallback_chain]
      unfold trainBuild
      rw [hrange, show List.range 1 = [0] from rfl, List.foldl_cons,
        List.foldl_nil]
      simp [buildStep, mkCleared, chainAdd]
    refine ⟨rfl, ?_, ?_⟩
    · rw [hchain]
      rfl
    · intro p hp
      rw [hchain] at hp
      simp at hp
      subst hp
      rfl

/-- Witness for C1 at the boundary: corpus `"a b c"` with order 2. -/
theorem train_insufficient_iff_and_boundary_witness :
    ((train mInit textABC 2).snd =
        some { required := 2 + 1, actual := (tokenize textABC).length } ↔
      (tokenize textABC).length < 2 + 1) ∧
    ((tokenize textABC).length = 2 + 1 →
      (train mInit textABC 2).snd = none ∧
      (train mInit textABC 2).fst.chain.length = 1 ∧
      ∀ p ∈ (train mInit textABC 2).fst.chain, p.2.length = 1) :=
  train_insufficient_iff_and_boundary mInit textABC 2 (by decide)

/-! ### Claim C2 -/

/-- C2: after every successful `train(text, order)` call, every key of the
transition table re-tokenizes to exactly `order` space-separated tokens,
every table entry's candidate list is non-empty, and the start-state set
is non-empty. -/
theorem train_table_invariants (m0 : MarkovChain) (text : List Char)
    (order : Nat) (m : MarkovChain) (_ho : 1 ≤ order)
    (h : train m0 text order = (m, none)) :
    (∀ p ∈ m.chain, (tokenize p.1).length = order ∧ p.2 ≠ []) ∧
    m.start_words ≠ [] := by
  obtain ⟨hN, hord, hch, hsw, hc, hs⟩ := train_ok h
  refine ⟨?_, hsw⟩
  intro p hp
  obtain ⟨hkey, hne, _⟩ := hc p hp
  obtain ⟨sl, hsl, hlen, _⟩ := sliceKey_tokenize (tokenize_good text) hkey
  exact ⟨by rw [hsl]; exact hlen, hne⟩

/-- Witness for C2: the model trained on `"a b c"` with order 1. -/
theorem train_table_invariants_witness :
    (∀ p ∈ mABC.chain, (tokenize p.1).length = 1 ∧ p.2 ≠ []) ∧
    mABC.start_words ≠ [] :=
  train_table_invariants mInit textABC 1 mABC (by decide) rfl

/-! ### Claim C5 -/

/-- C5 counterexample: training is not atomic.  Starting from the model
trained on `"a b c"`, a failing `train("x", 1)` call leaves the model in a
different observable state than before the call (the table is wiped, the
corpus text and counts are replaced). -/
theorem train_failure_not_atomic_cex :
    (train mABC xText 1).snd.isSome = true ∧
    ¬ (train mABC xText 1).fst = mABC := by
  constructor
  · decide
  · decide

/-- C5 amended: if `train(text, order)` fails with `InsufficientCorpus`,
the model is not restored to its previous state but left cleared for the
new call: empty table, empty start-state set, empty unique-token set, with
the new order, the new corpus text and its token count recorded. -/
theorem train_failure_clears_model (m0 : MarkovChain) (text : List Char)
    (order : Nat) (m : MarkovChain) (e : InsufficientCorpus)
    (h : train m0 text order = (m, some e)) :
    m = mkCleared text order := by
  unfold train at h
  split at h
  · have := congrArg Prod.fst h
    simp at this
    exact this.symm
  · exact absurd (congrArg Prod.snd h) (by simp)

/-- Witness for the amended C5: the failing call `train("x", 1)`. -/
theorem train_failure_clears_model_witness :
    (train mInit xText 1).fst = mkCleared xText 1 :=
  train_failure_clears_model mInit xText 1 (train mInit xText 1).fst
    { required := 2, actual := 1 } rfl

/-! ### Lemmas about the generation walk -/

/-- A random choice from a non-empty list is a member of it. -/
lemma chooseD_mem {α : Type} (l : List α) (d : α) (n : Nat) (h : l ≠ []) :
    chooseD l d n ∈ l := by
  unfold chooseD
  exact getD_mem (Nat.mod_lt n (List.length_pos.mpr h))

/-- The dead-end branch performs one iteration. -/
lemma deadEndStep_iters (m : MarkovChain) (st : WalkSt) :
    (deadEndStep m st).iters = st.iters + 1 := rfl

/-- The normal branch performs one iteration. -/
lemma moveStep_iters (m : MarkovChain) (len : Nat) (st : WalkSt) :
    (moveStep m len st).iters = st.iters + 1 := rfl

/-- The walk loop executes at most `fuel` further iterations. -/
lemma walkLoop_iters (m : MarkovChain) (len : Nat) :
    ∀ (fuel : Nat) (st : WalkSt),
    (walkLoop m len fuel st).iters ≤ st.iters + fuel := by
  intro fuel
  induction fuel with
  | zero => intro st; simp [walkLoop]
  | succ fuel ih =>
    intro st
    rw [walkLoop]
    split_ifs with h1 h2
    · have := ih (deadEndStep m st)
      rw [deadEndStep_iters] at this
      omega
    · have := ih (moveStep m len st)
      rw [moveStep_iters] at this
      omega
    · omega

/-- The walk loop only appends whitespace-free tokens to the result,
provided every transition candidate of the model is whitespace-free. -/
lemma walkLoop_result (m : MarkovChain) (len : Nat)
    (hcand : ∀ p ∈ m.chain, ∀ w ∈ p.2, ∀ c ∈ w, wsChar c = false) :
    ∀ (fuel : Nat) (st : WalkSt),
    (∀ t ∈ st.result, ∀ c ∈ t, wsChar c = false) →
    ∃ suf, (walkLoop m len fuel st).result = st.result ++ suf ∧
      ∀ t ∈ (walkLoop m len fuel st).result, ∀ c ∈ t, wsChar c = false := by
  intro fuel
  induction fuel with
  | zero =>
    intro st hst
    exact ⟨[], by simp [walkLoop], by simpa [walkLoop] using hst⟩
  | succ fuel ih =>
    intro st hst
    rw [walkLoop]
    split_ifs with h1 h2
    · have hres : (deadEndStep m st).result =
        st.result ++ ([] :: tokenize (chooseD m.start_words [] (randPick st.r))) :=
        rfl
      have hgood : ∀ t ∈ (deadEndStep m st).result, ∀ c ∈ t, wsChar c = false := by
        rw [hres]
        intro t ht
        rcases List.mem_append.mp ht with h | h
        · exact hst t h
        · rcases List.mem_cons.mp h with rfl | h'
          · intro c hc'
            simp at hc'
          · exact (tokenize_good _ t h').2
      obtain ⟨suf, hsuf, hall⟩ := ih (deadEndStep m st) hgood
      refine ⟨([] :: tokenize (chooseD m.start_words [] (randPick st.r))) ++ suf,
        ?_, hall⟩
      rw [hsuf, hres, List.append_assoc]
    · have hres : (moveStep m len st).result = st.result ++ [moveNext m st] := rfl
      have hnw : ∀ c ∈ moveNext m st, wsChar c = false := by
        have hne : chainGet m.chain st.cur ≠ [] := by
          intro hx
          rw [hx] at h2
          exact h2 rfl
        have hmem : moveNext m st ∈ chainGet m.chain st.cur :=
          chooseD_mem _ _ _ hne
        obtain ⟨p, hp, hw⟩ := chainGet_mem m.chain st.cur _ hmem
        exact hcand p hp _ hw
      have hgood : ∀ t ∈ (moveStep m len st).result, ∀ c ∈ t, wsChar c = false := by
        rw [hres]
        intro t ht
        rcases List.mem_append.mp ht with h | h
        · exact hst t h
        · simp at h
          subst h
          exact hnw
      obtain ⟨suf, hsuf, hall⟩ := ih (moveStep m len st) hgood
      refine ⟨[moveNext m st] ++ suf, ?_, hall⟩
      rw [hsuf, hres, List.append_assoc]
    · exact ⟨[], by simp, hst⟩

/-! ### Claim C3 -/

/-- C3: for every trained model and every length ≥ 1, `generate(length)`
without a seed never fails, and its output, re-tokenized, begins with the
token sequence of some state in the recorded start-state set. -/
theorem generate_no_seed_never_fails (m0 : MarkovChain) (text : List Char)
    (order : Nat) (m : MarkovChain) (len : Nat) (r : RandSrc)
    (_ho : 1 ≤ order) (_hlen : 1 ≤ len)
    (h : train m0 text order = (m, none)) :
    ∃ out, generate m len none r = Except.ok out ∧
      ∃ s ∈ m.start_words, tokenize s <+: tokenize out := by
  obtain ⟨hN, hord, hch, hsw, hc, hs⟩ := train_ok h
  have hie : m.chain.isEmpty = false := List.isEmpty_eq_false.mpr hch
  have hginit : genInit m none r = Except.ok (startPick m r) := by
    simp [genInit, hie]
  have hmem : chooseD m.start_words [] (randPick r) ∈ m.start_words :=
    chooseD_mem _ _ _ hsw
  have hfull : generateFull m len none r = Except.ok (walkLoop m len (len * 3)
      { result := tokenize (chooseD m.start_words [] (randPick r)),
        cur := chooseD m.start_words [] (randPick r),
        generated := (tokenize (chooseD m.start_words [] (randPick r))).length,
        iters := 0, r := randNext r }) := by
    unfold generateFull
    rw [hginit]
    rfl
  have hcand : ∀ p ∈ m.chain, ∀ w ∈ p.2, ∀ c ∈ w, wsChar c = false := by
    intro p hp w hw
    exact (tokenize_good text w ((hc p hp).2.2 w hw)).2
  obtain ⟨suf, hsuf, hall⟩ := walkLoop_result m len hcand (len * 3)
    { result := tokenize (chooseD m.start_words [] (randPick r)),
      cur := chooseD m.start_words [] (randPick r),
      generated := (tokenize (chooseD m.start_words [] (randPick r))).length,
      iters := 0, r := randNext r }
    (fun t ht => (tokenize_good _ t ht).2)
  refine ⟨stripL (joinL (walkLoop m len (len * 3)
      { result := tokenize (chooseD m.start_words [] (randPick r)),
        cur := chooseD m.start_words [] (randPick r),
        generated := (tokenize (chooseD m.start_words [] (randPick r))).length,
        iters := 0, r := randNext r }).result), ?_,
    chooseD m.start_words [] (randPick r), hmem, ?_⟩
  · unfold generate
    rw [hfull]
    rfl
  · have h1 : tokenize (stripL (joinL (walkLoop m len (len * 3)
        { result := tokenize (chooseD m.start_words [] (randPick r)),
          cur := chooseD m.start_words [] (randPick r),
          generated := (tokenize (chooseD m.start_words [] (randPick r))).length,
          iters := 0, r := randNext r }).result)) =
        ((walkLoop m len (len * 3)
        { result := tokenize (chooseD m.start_words [] (randPick r)),
          cur := chooseD m.start_words [] (randPick r),
          generated := (tokenize (chooseD m.start_words [] (randPick r))).length,
          iters := 0, r := randNext r }).result).filter (fun t => !t.isEmpty) := by
      rw [tokenize_stripL, tokenize_joinL_filter _ hall]
    rw [h1, hsuf, List.filter_append]
    have h2 : (tokenize (chooseD m.start_words [] (randPick r))).filter
        (fun t => !t.isEmpty) = tokenize (chooseD m.start_words [] (randPick r)) :=
      List.filter_eq_self.mpr (fun t ht => by
        have := (tokenize_good _ t ht).1
        cases t with
        | nil => exact absurd rfl this
        | cons a t' => rfl)
    rw [h2]
    exact ⟨_, rfl⟩

/-- Witness for C3: the model trained on `"a b c"` with order 1,
generation length 1. -/
theorem generate_no_seed_never_fails_witness :
    ∃ out, generate mABC 1 none rand0 = Except.ok out ∧
      ∃ s ∈ mABC.start_words, tokenize s <+: tokenize out :=
  generate_no_seed_never_fails mInit textABC 1 mABC 1 rand0 (by decide)
    (by decide) rfl

/-! ### Claim C6 -/

/-- C6: for every trained model, every length and every seed, the
generation walk loop executes at most `max_iterations = 3 × length`
iterations, so generation always terminates. -/
theorem walk_iterations_bounded (m : MarkovChain) (len : Nat)
    (seed : Option (List Char)) (r : RandSrc) (st : WalkSt)
    (h : generateFull m len seed r = Except.ok st) :
    st.iters ≤ len * 3 := by
  unfold generateFull at h
  cases hg : genInit m seed r with
  | error e =>
    rw [hg] at h
    exact absurd h (by simp)
  | ok pr =>
    obtain ⟨cur, r1⟩ := pr
    rw [hg] at h
    simp at h
    rw [← h]
    have := walkLoop_iters m len (len * 3)
      { result := tokenize cur, cur := cur, generated := (tokenize cur).length,
        iters := 0, r := r1 }
    simpa using this

/-- Witness for C6: a concrete generation run with length 1. -/
theorem walk_iterations_bounded_witness : stC6.iters ≤ 1 * 3 :=
  walk_iterations_bounded mABC 1 none rand0 stC6 rfl

/-! ### Claim C7 -/

/-- C7: during seed resolution on a trained model of order `k`, when the
seed passes the vocabulary check: a seed of at least `k` tokens resolves
to the join of its last `k` tokens; a shorter seed is left-padded with the
leading tokens of a randomly chosen start state so that the combined state
has exactly `k` tokens. -/
theorem seed_state_resolution (m0 : MarkovChain) (text : List Char)
    (k : Nat) (m : MarkovChain) (hk : 1 ≤ k)
    (h : train m0 text k = (m, none)) (s : List Char) (r : RandSrc) :
    (k ≤ (tokenize s).length →
      tokenize (seedInitState m (tokenize s) r).fst =
        (tokenize s).drop ((tokenize s).length - k)) ∧
    ((tokenize s).length < k →
      ∃ ps ∈ m.start_words,
        tokenize (seedInitState m (tokenize s) r).fst =
          (tokenize ps).take (k - (tokenize s).length) ++ tokenize s ∧
        (tokenize (seedInitState m (tokenize s) r).fst).length = k) := by
  obtain ⟨hN, hord, hch, hsw, hc, hs⟩ := train_ok h
  constructor
  · intro hge
    have hle : m.order ≤ (tokenize s).length := by
      rw [hord]
      exact hge
    have hres : (seedInitState m (tokenize s) r).fst =
        joinL (negSlice (tokenize s) m.order) := by
      unfold seedInitState
      rw [if_pos hle]
    have hno : ¬ m.order = 0 := by
      rw [hord]
      omega
    have hns : negSlice (tokenize s) m.order =
        (tokenize s).drop ((tokenize s).length - m.order) := by
      unfold negSlice
      rw [if_neg hno]
    rw [hres, hns, tokenize_joinL _ (fun t ht =>
      tokenize_good _ t (List.drop_subset _ _ ht)), hord]
  · intro hlt
    have hnle : ¬ (m.order ≤ (tokenize s).length) := by
      rw [hord]
      omega
    have hres : (seedInitState m (tokenize s) r).fst =
        joinL ((tokenize (chooseD m.start_words [] (randPick r))).take
          (m.order - (tokenize s).length) ++ tokenize s) := by
      unfold seedInitState
      rw [if_neg hnle]
    have hgood : ∀ t ∈ (tokenize (chooseD m.start_words [] (randPick r))).take
        (m.order - (tokenize s).length) ++ tokenize s,
        t ≠ [] ∧ ∀ c ∈ t, wsChar c = false := by
      intro t ht
      rcases List.mem_append.mp ht with h' | h'
      · exact tokenize_good _ t (List.take_subset _ _ h')
      · exact tokenize_good _ t h'
    have htok : tokenize (seedInitState m (tokenize s) r).fst =
        (tokenize (chooseD m.start_words [] (randPick r))).take
          (m.order - (tokenize s).length) ++ tokenize s := by
      rw [hres, tokenize_joinL _ hgood]
    refine ⟨chooseD m.start_words [] (randPick r), chooseD_mem _ _ _ hsw, ?_, ?_⟩
    · rw [htok, hord]
    · rw [htok]
      obtain ⟨sl, hsl, hlen, _⟩ := sliceKey_tokenize (tokenize_good text)
        (hs _ (chooseD_mem _ _ _ hsw))
      rw [List.length_append, List.length_take, hsl, hlen, hord]
      omega

/-- Witness for C7: the model trained on `"a b c"` with order 2 and the
one-token seed `"b"`, which exercises the left-padding branch. -/
theorem seed_state_resolution_witness :
    (2 ≤ (tokenize seedB).length →
      tokenize (seedInitState mAB2 (tokenize seedB) rand0).fst =
        (tokenize seedB).drop ((tokenize seedB).length - 2)) ∧
    ((tokenize seedB).length < 2 →
      ∃ ps ∈ mAB2.start_words,
        tokenize (seedInitState mAB2 (tokenize seedB) rand0).fst =
          (tokenize ps).take (2 - (tokenize seedB).length) ++ tokenize seedB ∧
        (tokenize (seedInitState mAB2 (tokenize seedB) rand0).fst).length = 2) :=
  seed_state_resolution mInit textABC 2 mAB2 (by decide) rfl seedB rand0

/-! ### Claim C4 -/

/-- On a trained model, with a truthy (non-empty) seed string, `genInit`
either raises the seed-not-found error (exactly when no seed token passes
the vocabulary check) or returns normally. -/
lemma genInit_cases (m : MarkovChain) (s : List Char) (r : RandSrc)
    (hch : m.chain ≠ []) (hs : s ≠ []) :
    (genInit m (some s) r =
        Except.error (GenError.seedNotFound s (sampleWords m)) ∧
      (seedMatches m (tokenize s)).isEmpty = true) ∨
    ((∃ pr, genInit m (some s) r = Except.ok pr) ∧
      (seedMatches m (tokenize s)).isEmpty = false) := by
  have hie : m.chain.isEmpty = false := List.isEmpty_eq_false.mpr hch
  have hsE : s.isEmpty = false := List.isEmpty_eq_false.mpr hs
  cases hm : (seedMatches m (tokenize s)).isEmpty with
  | true =>
    left
    refine ⟨?_, rfl⟩
    simp [genInit, hie, hsE, hm]
  | false =>
    right
    refine ⟨?_, rfl⟩
    simp only [genInit, hie, hsE, hm, Bool.false_eq_true, if_false]
    split_ifs <;> exact ⟨_, rfl⟩

/-- C4 counterexample: on the model trained on `"a b c"`, the supplied
seed `""` has no token matching the vocabulary (its tokenization is
empty), yet `generate` returns normally instead of failing with the
seed-not-found error, because Python's `if seed:` treats the empty string
like an absent seed. -/
theorem generate_seed_not_found_cex :
    (∀ w ∈ tokenize ([] : List Char),
      ¬ ∃ u ∈ mABC.unique_words, lowerL u = lowerL w) ∧
    isOkB (generate mABC 1 (some []) rand0) = true := by
  constructor
  · decide
  · decide

/-- C4 amended: for every trained model and every non-empty seed string,
`generate` fails with the seed-not-found error (whose payload carries at
most 5 sample corpus tokens) if and only if no token of the tokenized
seed matches, case-insensitively, any token of the model's unique-token
set. -/
theorem generate_seedNotFound_iff (m0 : MarkovChain) (text : List Char)
    (order : Nat) (m : MarkovChain) (h : train m0 text order = (m, none))
    (s : List Char) (hsne : s ≠ []) (len : Nat) (r : RandSrc) :
    (∃ smp, generate m len (some s) r =
        Except.error (GenError.seedNotFound s smp) ∧ smp.length ≤ 5) ↔
      ∀ w ∈ tokenize s, ¬ ∃ u ∈ m.unique_words, lowerL u = lowerL w := by
  obtain ⟨_, _, hch, _, _, _⟩ := train_ok h
  have hA : ((seedMatches m (tokenize s)).isEmpty = true) ↔
      (∀ w ∈ tokenize s, ¬ ∃ u ∈ m.unique_words, lowerL u = lowerL w) := by
    unfold seedMatches
    rw [List.isEmpty_iff, List.filter_eq_nil_iff]
    simp only [decide_eq_true_eq, List.mem_map]
  constructor
  · rintro ⟨smp, herr, _⟩
    rcases genInit_cases m s r hch hsne with ⟨hgi, hm⟩ | ⟨⟨pr, hgi⟩, hm⟩
    · exact hA.mp hm
    · exfalso
      unfold generate generateFull at herr
      rw [hgi] at herr
      obtain ⟨cur, r1⟩ := pr
      simp [Except.map] at herr
  · intro hr
    rcases genInit_cases m s r hch hsne with ⟨hgi, _⟩ | ⟨_, hm'⟩
    · refine ⟨sampleWords m, ?_, ?_⟩
      · unfold generate generateFull
        rw [hgi]
        rfl
      · unfold sampleWords
        exact List.length_take_le _ _
    · rw [hA.mpr hr] at hm'
      cases hm'

/-- Witness for the amended C4: the unmatched seed `"zzq"` against the
model trained on `"a b c"`. -/
theorem generate_seedNotFound_iff_witness :
    (∃ smp, generate mABC 3 (some seedZ) rand0 =
        Except.error (GenError.seedNotFound seedZ smp) ∧ smp.length ≤ 5) ↔
      ∀ w ∈ tokenize seedZ, ¬ ∃ u ∈ mABC.unique_words, lowerL u = lowerL w :=
  generate_seedNotFound_iff mInit textABC 1 mABC rfl seedZ (by decide) 3 rand0

/-! ### Claim C10 -/

/-- C10: on every trained model, `generate(length, seed="")` with the
empty-string seed skips seed resolution entirely: it behaves exactly like
`generate(length)` with no seed, never fails with the seed-not-found
error, and draws its initial state from the start-state set. -/
theorem generate_empty_seed_eq_no_seed (m0 : MarkovChain) (text : List Char)
    (order : Nat) (m : MarkovChain) (h : train m0 text order = (m, none))
    (len : Nat) (r : RandSrc) :
    generate m len (some []) r = generate m len none r ∧
    (∀ sd smp, generate m len (some []) r ≠
      Except.error (GenError.seedNotFound sd smp)) ∧
    ∃ st ∈ m.start_words,
      genInit m (some []) r = Except.ok (st, randNext r) := by
  obtain ⟨_, _, hch, hsw, _, _⟩ := train_ok h
  have hie : m.chain.isEmpty = false := List.isEmpty_eq_false.mpr hch
  have h1 : generate m len (some []) r = generate m len none r := rfl
  have hginit : genInit m none r = Except.ok (startPick m r) := by
    simp [genInit, hie]
  have hok : generate m len none r = Except.ok (stripL (joinL (walkLoop m len
      (len * 3)
      { result := tokenize (chooseD m.start_words [] (randPick r)),
        cur := chooseD m.start_words [] (randPick r),
        generated := (tokenize (chooseD m.start_words [] (randPick r))).length,
        iters := 0, r := randNext r }).result)) := by
    unfold generate generateFull
    rw [hginit]
    rfl
  refine ⟨h1, ?_, ?_⟩
  · intro sd smp hcontr
    rw [h1, hok] at hcontr
    cases hcontr
  · exact ⟨chooseD m.start_words [] (randPick r), chooseD_mem _ _ _ hsw, by
      simp [genInit, hie, startPick]⟩

/-- Witness for C10: the model trained on `"a b c"` with order 1. -/
theorem generate_empty_seed_eq_no_seed_witness :
    generate mABC 1 (some []) rand0 = generate mABC 1 none rand0 ∧
    (∀ sd smp, generate mABC 1 (some []) rand0 ≠
      Except.error (GenError.seedNotFound sd smp)) ∧
    ∃ st ∈ mABC.start_words,
      genInit mABC (some []) rand0 = Except.ok (st, randNext rand0) :=
  generate_empty_seed_eq_no_seed mInit textABC 1 mABC rfl 1 rand0

/-! ### Claim C8 -/

/-- C8: training on `"The cat sat. The dog ran."` with order 1 produces
exactly the table `The → [cat, dog]`, `cat → [sat.]`, `sat. → [The]`,
`dog → [ran.]`, registers the start state `"The"` twice (at position 0 and
after `"sat."`, so the start-state set is `{"The"}`), and
`get_ngram_frequencies(1, 10)` ranks `"The"` with count 2 above all other
unigrams, each with count 1. -/
theorem concrete_scenario_order_one :
    (train mInit textC8 1).snd = none ∧
    mC8.chain =
      [(("The").data, [("cat").data, ("dog").data]),
       (("cat").data, [("sat.").data]),
       (("sat.").data, [("The").data]),
       (("dog").data, [("ran.").data])] ∧
    mC8.start_words = [("The").data, ("The").data] ∧
    get_ngram_frequencies mC8 1 10 =
      [(("The").data, 2), (("cat").data, 1), (("sat.").data, 1),
       (("dog").data, 1), (("ran.").data, 1)] :=
  ⟨rfl, rfl, rfl, rfl⟩

/-! ### Claim C9 -/

/-- C9 counterexample: `analyze("Hi! Bye.")` does not return
`character_count = 6`; the input has 7 non-whitespace characters
(`H`, `i`, `!`, `B`, `y`, `e`, `.`), so the claimed conjunction fails. -/
theorem analyze_hi_bye_cex :
    ¬ ((analyze_text textC9).word_count = 2 ∧
       (analyze_text textC9).sentence_count = 2 ∧
       (analyze_text textC9).character_count = 6 ∧
       (analyze_text textC9).unique_words = 2) := by
  decide

/-- C9 amended: `analyze("Hi! Bye.")` returns `word_count = 2`,
`sentence_count = 2`, `unique_word_count = 2`, and `character_count = 7`,
which equals the count of all non-whitespace characters of the input. -/
theorem analyze_hi_bye_corrected :
    (analyze_text textC9).word_count = 2 ∧
    (analyze_text textC9).sentence_count = 2 ∧
    (analyze_text textC9).character_count = 7 ∧
    (analyze_text textC9).character_count =
      (textC9.filter (fun c => !wsChar c)).length ∧
    (analyze_text textC9).unique_words = 2 :=
  ⟨rfl, rfl, rfl, rfl, rfl⟩
